import Mathlib

/-!
Verification of the automix solver pipeline (automix_solve.py).

Shallow embedding of the Python program: the specification-file parser
(parse_spec_file with its helpers parse_nested_target, parse_nested_signal and
parse_signal_components), the hall augmenter (add_hall_signals), the decibel
conversions (db_to_linear, linear_to_db), the solver contract of solve_mix and
the diagnostics reporter of main.

Modelling conventions:
- a file is a list of lines (strings without their trailing newline);
- Python float literals are modelled exactly as rationals; float("...") on a
  string matched by the lenient regex [0-9.]+ raises ValueError when the token
  has two dots or no digit, which we model as the value none ("the process
  crashed");  every parsing function therefore returns an Option, none meaning
  an uncaught exception;
- Python dicts keyed by strings or ints are association lists with
  first-position/overwrite update semantics, exactly as dict assignment;
- the two index-based while loops of parse_spec_file, which call the nested
  block parsers and resume at the returned index, are fused into single
  line-at-a-time scans with an explicit mode (outside a block / inside a block
  carrying the block state).  The correspondence is line by line: the nested
  parser consumes lines until the first line indented less than the block
  base indent, and that line is rescanned by the outer loop, which is the
  dedent branch below;
- regular expressions are specialized to exact character functions; the regex
  character classes are the ASCII readings of \w, \s and [0-9.] (the repository
  inputs are ASCII).
-/

open Finset

namespace Automix

/-- ASCII whitespace, the characters Python str.strip and the regex \s accept. -/
def pySpace (c : Char) : Bool :=
  c = ' ' || c = '\t' || c = '\n' || c = '\r' || c = '\x0b' || c = '\x0c'

/-- Characters of the regex class \w (ASCII reading). -/
def isWordChar (c : Char) : Bool := c.isAlphanum || c = '_'

/-- Characters of the regex class [0-9.]. -/
def isNumChar (c : Char) : Bool := c.isDigit || c = '.'

/-- Python line.strip(). -/
def pyStrip (s : List Char) : List Char :=
  ((s.dropWhile pySpace).reverse.dropWhile pySpace).reverse

/-- indent = len(line) - len(line.lstrip()). -/
def indentOf (line : String) : Nat :=
  (line.toList.takeWhile pySpace).length

/-- Value of a digit string. -/
def digitsVal (ds : List Char) : Nat :=
  ds.foldl (fun a c => 10 * a + (c.toNat - 48)) 0

/-- Python float() applied to a string matched by -?[0-9.]+ : defined exactly
when the token has at least one digit and at most one dot; none models the
ValueError Python raises otherwise (e.g. on "1.2.3" or "."). -/
def parsePyFloat (s : List Char) : Option ℚ :=
  let p : Bool × List Char := match s with
    | '-' :: rest => (true, rest)
    | _ => (false, s)
  let t := p.2
  if t = [] then none
  else if ¬ (t.all isNumChar) then none
  else if 1 < (t.filter (fun c => c = '.')).length then none
  else if ¬ (t.any Char.isDigit) then none
  else
    let ip := t.takeWhile (fun c => c ≠ '.')
    let fp := (t.dropWhile (fun c => c ≠ '.')).drop 1
    let v : ℚ := (digitsVal ip : ℚ) + (digitsVal fp : ℚ) / ((10 : ℚ) ^ fp.length)
    some (if p.1 then -v else v)

/-- re.match r"(\w+):\s*([0-9.]+)\s*$" on a stripped line: the instrument lines
of the target and nested-signal grammars.  Returns the name and the raw number
token (float conversion happens at the call sites, as in the source). -/
def matchInstrLine (s : List Char) : Option (String × List Char) :=
  let w := s.takeWhile isWordChar
  if w = [] then none
  else match s.drop w.length with
    | ':' :: r =>
      let r1 := r.dropWhile pySpace
      let num := r1.takeWhile isNumChar
      if num = [] then none
      else if (r1.drop num.length).all pySpace then some (String.mk w, num)
      else none
    | _ => none

/-- re.match r"(direct|early):\s*([0-9.]+)\s*$" on a stripped line.
The Bool is true for "direct". -/
def matchRatioLine (s : List Char) : Option (Bool × List Char) :=
  let go : List Char → Bool → Option (Bool × List Char) := fun r isDir =>
    let r1 := r.dropWhile pySpace
    let num := r1.takeWhile isNumChar
    if num = [] then none
    else if (r1.drop num.length).all pySpace then some (isDir, num)
    else none
  if ("direct:".toList).isPrefixOf s then go (s.drop 7) true
  else if ("early:".toList).isPrefixOf s then go (s.drop 6) false
  else none

/-- re.match r"hall\s+gain:\s*(-?[0-9.]+)\s*$" on a stripped line.  Returns the
signed number token. -/
def matchHallLine (s : List Char) : Option (List Char) :=
  if ("hall".toList).isPrefixOf s then
    let r := s.drop 4
    let ws := r.takeWhile pySpace
    if ws = [] then none
    else
      let r1 := r.drop ws.length
      if ("gain:".toList).isPrefixOf r1 then
        let r2 := (r1.drop 5).dropWhile pySpace
        let q : Bool × List Char := match r2 with
          | '-' :: t => (true, t)
          | _ => (false, r2)
        let num := q.2.takeWhile isNumChar
        if num = [] then none
        else if (q.2.drop num.length).all pySpace then
          some (if q.1 then '-' :: num else num)
        else none
      else none
  else none

/-- re.match r"signal\s+(\S+):\s*$" on a stripped line (header of the nested
signal form).  Since the line is stripped, the pattern matches exactly when the
part after the separating whitespace is a nonempty whitespace-free token ending
in a colon; the greedy \S+ group is everything before that final colon. -/
def matchSignalHeader (s : List Char) : Option String :=
  if ("signal".toList).isPrefixOf s then
    let r := s.drop 6
    let ws := r.takeWhile pySpace
    if ws = [] then none
    else
      let r1 := r.drop ws.length
      match r1.reverse with
      | ':' :: revName =>
        let name := revName.reverse
        if name ≠ [] ∧ name.all (fun c => ¬ pySpace c) then some (String.mk name)
        else none
      | _ => none
  else none

/-- re.match r"signal\s+(\S+):\s*(.+)$" on a stripped line (inline signal
form).  Backtracking makes \S+ the longest whitespace-free prefix that is
followed by a colon with at least one character after it; group 2 is the rest
of the line after that colon with its leading whitespace removed. -/
def matchSignalInline (s : List Char) : Option (String × List Char) :=
  if ("signal".toList).isPrefixOf s then
    let r := s.drop 6
    let ws := r.takeWhile pySpace
    if ws = [] then none
    else
      let r1 := r.drop ws.length
      let run := r1.takeWhile (fun c => ¬ pySpace c)
      let cand := (List.range run.length).foldl
        (fun acc i =>
          if 1 ≤ i ∧ run.getD i ' ' = ':' ∧ i + 1 < r1.length then some i else acc)
        none
      match cand with
      | some i => some (String.mk (r1.take i), (r1.drop (i + 1)).dropWhile pySpace)
      | none => none
  else none

/-- Python dict assignment d[k] = v on an association list: overwrite in place
if the key is present (dicts keep the first insertion position), else append. -/
def updAssoc {α β : Type} [DecidableEq α] : List (α × β) → α → β → List (α × β)
  | [], k, v => [(k, v)]
  | p :: rest, k, v => if p.1 = k then (k, v) :: rest else p :: updAssoc rest k v

/-- The component_index dict {name: idx for idx, name in enumerate(components)}:
a duplicated name keeps the index of its last occurrence.  none models absence
(the Python "in" test failing). -/
def lastIdxOf : List String → String → Option Nat
  | [], _ => none
  | c :: cs, n =>
    match lastIdxOf cs n with
    | some i => some (i + 1)
    | none => if c = n then some 0 else none

/-- Per-instrument record of the target block: the overall weight plus the
optional direct/early entries of the per-instrument dict. -/
structure TW where
  weight : ℚ
  direct : Option ℚ
  early : Option ℚ
deriving DecidableEq

/-- A parsed signal: {"name": ..., "weights": {...}, "is_hall": ...}. -/
structure Signal where
  name : String
  weights : List (Nat × ℚ)
  is_hall : Bool
deriving DecidableEq

/-- The dict returned by parse_spec_file.  component_index is not a field: it
is determined by components (see lastIdxOf). -/
structure Spec where
  components : List String
  signals : List Signal
  target : List (Nat × ℚ)
  instruments : List String
  hall_gain_db : ℚ
deriving DecidableEq

/-- components: for each instrument, ⟨instr⟩_direct then ⟨instr⟩_early. -/
def componentsOf : List String → List String
  | [] => []
  | i :: rest => (i ++ "_direct") :: (i ++ "_early") :: componentsOf rest

/-- The target dict: for each instrument of the target block, in insertion
order, weight * direct ratio at the instrument's direct index and
weight * early ratio at its early index (ratios default to 0). -/
def buildTarget (comps : List String) : List (String × TW) → List (Nat × ℚ) → List (Nat × ℚ)
  | [], acc => acc
  | (instr, t) :: rest, acc =>
    let acc1 := match lastIdxOf comps (instr ++ "_direct") with
      | some i => updAssoc acc i (t.weight * t.direct.getD 0)
      | none => acc
    let acc2 := match lastIdxOf comps (instr ++ "_early") with
      | some i => updAssoc acc1 i (t.weight * t.early.getD 0)
      | none => acc1
    buildTarget comps rest acc2

/-- First pass of parse_spec_file fused with parse_nested_target.  The mode is
none at top level and some (base_indent, current_instrument) inside a target
block; ins / tw are the instruments and target_weights accumulators and hall
the hall_gain_db value so far.  A line indented less than the block base ends
the block and is rescanned by the top-level logic, exactly as the source
resumes its outer loop at the index returned by parse_nested_target.  The
result is none when a float() call raises. -/
def firstPass : List String → Option (Option Nat × Option String) →
    List String → List (String × TW) → ℚ →
    Option (List String × List (String × TW) × ℚ)
  | [], _, ins, tw, hall => some (ins, tw, hall)
  | line :: rest, some bc, ins, tw, hall =>
    let st := pyStrip line.toList
    if st = [] ∨ st.headD ' ' = '#' then firstPass rest (some bc) ins tw hall
    else
      let ind := indentOf line
      let b := bc.1.getD ind
      if ind < b then
        -- dedent: the target block is over, rescan this line at top level
        if st = "target:".toList then firstPass rest (some (none, none)) [] [] hall
        else match matchHallLine st with
          | some num =>
            match parsePyFloat num with
            | none => none
            | some v => firstPass rest none ins tw v
          | none => firstPass rest none ins tw hall
      else
        match (if ind = b then matchInstrLine st else none) with
        | some nv =>
          match parsePyFloat nv.2 with
          | none => none
          | some w =>
            firstPass rest (some (some b, some nv.1)) (ins ++ [nv.1])
              (updAssoc tw nv.1 ⟨w, none, none⟩) hall
        | none =>
          match (if b < ind then matchRatioLine st else none), bc.2 with
          | some dv, some cur =>
            match parsePyFloat dv.2 with
            | none => none
            | some r =>
              let tw' := tw.map (fun p =>
                if p.1 = cur then
                  (p.1, if dv.1 then TW.mk p.2.weight (some r) p.2.early
                        else TW.mk p.2.weight p.2.direct (some r))
                else p)
              firstPass rest (some (some b, some cur)) ins tw' hall
          | _, _ => firstPass rest (some (some b, bc.2)) ins tw hall
  | line :: rest, none, ins, tw, hall =>
    let st := pyStrip line.toList
    if st = "target:".toList then firstPass rest (some (none, none)) [] [] hall
    else match matchHallLine st with
      | some num =>
        match parsePyFloat num with
        | none => none
        | some v => firstPass rest none ins tw v
      | none => firstPass rest none ins tw hall

/-- parse_signal_components: fold over the comma-separated parts.  For each
part matching ([0-9.]+)\s+(\S+) the float is taken first (it can raise), the
bare alias "direct" is expanded to ⟨signal⟩_direct, and the weight is stored
only when the component name is a key of component_index. -/
def parseComponentParts (signalName : String) (comps : List String) :
    List (List Char) → List (Nat × ℚ) → Option (List (Nat × ℚ))
  | [], acc => some acc
  | part :: rest, acc =>
    let p := pyStrip part
    let num := p.takeWhile isNumChar
    if num = [] then parseComponentParts signalName comps rest acc
    else
      let r1 := p.drop num.length
      let ws := r1.takeWhile pySpace
      if ws = [] then parseComponentParts signalName comps rest acc
      else
        let nm := (r1.drop ws.length).takeWhile (fun c => ¬ pySpace c)
        if nm = [] then parseComponentParts signalName comps rest acc
        else
          match parsePyFloat num with
          | none => none
          | some w =>
            let nm' := if nm = "direct".toList then signalName ++ "_direct"
                       else String.mk nm
            match lastIdxOf comps nm' with
            | some idx => parseComponentParts signalName comps rest (updAssoc acc idx w)
            | none => parseComponentParts signalName comps rest acc

def parseSignalComponents (content : List Char) (signalName : String)
    (comps : List String) : Option (List (Nat × ℚ)) :=
  parseComponentParts signalName comps (content.splitOn ',') []

/-- State while inside a nested signal block during the second pass. -/
structure SigCtx where
  base : Option Nat
  cur : Option String
  curW : ℚ
  sname : String
  weights : List (Nat × ℚ)
deriving DecidableEq

/-- Second pass of parse_spec_file fused with parse_nested_signal, in the same
single-cursor style as firstPass.  Closing a nested block (dedent or end of
file) appends the accumulated signal; the dedent line is rescanned by the
top-level logic, which may open the next signal. -/
def secondPass (comps : List String) : List String → Option SigCtx →
    List Signal → Option (List Signal)
  | [], none, acc => some acc
  | [], some ctx, acc => some (acc ++ [⟨ctx.sname, ctx.weights, false⟩])
  | line :: rest, some ctx, acc =>
    let st := pyStrip line.toList
    if st = [] ∨ st.headD ' ' = '#' then secondPass comps rest (some ctx) acc
    else
      let ind := indentOf line
      let b := ctx.base.getD ind
      if ind < b then
        -- the signal block ends: emit it, then rescan this line at top level
        let acc' := acc ++ [⟨ctx.sname, ctx.weights, false⟩]
        match matchSignalHeader st with
        | some nm => secondPass comps rest (some ⟨none, none, 0, nm, []⟩) acc'
        | none =>
          match matchSignalInline st with
          | some nc =>
            match parseSignalComponents nc.2 nc.1 comps with
            | none => none
            | some w => secondPass comps rest none (acc' ++ [⟨nc.1, w, false⟩])
          | none => secondPass comps rest none acc'
      else
        match (if ind = b then matchInstrLine st else none) with
        | some nv =>
          match parsePyFloat nv.2 with
          | none => none
          | some w =>
            secondPass comps rest
              (some ⟨some b, some nv.1, w, ctx.sname, ctx.weights⟩) acc
        | none =>
          match (if b < ind then matchRatioLine st else none), ctx.cur with
          | some dv, some cur =>
            match parsePyFloat dv.2 with
            | none => none
            | some r =>
              let compName := cur ++ (if dv.1 then "_direct" else "_early")
              let w' := match lastIdxOf comps compName with
                | some idx => updAssoc ctx.weights idx (ctx.curW * r)
                | none => ctx.weights
              secondPass comps rest (some ⟨some b, ctx.cur, ctx.curW, ctx.sname, w'⟩) acc
          | _, _ =>
            secondPass comps rest (some ⟨some b, ctx.cur, ctx.curW, ctx.sname, ctx.weights⟩) acc
  | line :: rest, none, acc =>
    let st := pyStrip line.toList
    if st = [] ∨ st.headD ' ' = '#' then secondPass comps rest none acc
    else match matchSignalHeader st with
      | some nm => secondPass comps rest (some ⟨none, none, 0, nm, []⟩) acc
      | none =>
        match matchSignalInline st with
        | some nc =>
          match parseSignalComponents nc.2 nc.1 comps with
          | none => none
          | some w => secondPass comps rest none (acc ++ [⟨nc.1, w, false⟩])
        | none => secondPass comps rest none acc

def noTargetMsg : String := "No target section found in spec file"

/-- parse_spec_file on the file's lines: the outer Option is none when a
float() call raises (the process dies with a traceback); otherwise the Except
is the (spec, err) pair of the source — error exactly when the first pass
declared no instrument. -/
def parseSpecFile (lines : List String) : Option (Except String Spec) :=
  match firstPass lines none [] [] 0 with
  | none => none
  | some r =>
    if r.1 = [] then some (Except.error noTargetMsg)
    else
      let comps := componentsOf r.1
      match secondPass comps lines none [] with
      | none => none
      | some sigs =>
        some (Except.ok ⟨comps, sigs, buildTarget comps r.2.1 [], r.1, r.2.2⟩)

/-! ### Top-level lines (specification-side view of the first pass)

The specification describes hall gain lines as effective "anywhere"; the code
actually recognizes them only on lines scanned by the outer loop of the first
pass, i.e. lines not consumed as the body of a target block.  topLevelLines
computes exactly those lines; it is the reference against which the parsed
hall gain is characterized.  The mode is none at top level and some base
inside a target block. -/

def topLevelLines : List String → Option (Option Nat) → List String
  | [], _ => []
  | line :: rest, none =>
    if pyStrip line.toList = "target:".toList then topLevelLines rest (some none)
    else line :: topLevelLines rest none
  | line :: rest, some base =>
    let st := pyStrip line.toList
    if st = [] ∨ st.headD ' ' = '#' then topLevelLines rest (some base)
    else
      let ind := indentOf line
      let b := base.getD ind
      if ind < b then
        if st = "target:".toList then topLevelLines rest (some none)
        else line :: topLevelLines rest none
      else topLevelLines rest (some (some b))

/-- The hall gain set by a line, when it matches the hall regex and its number
token is a well-formed float. -/
def hallLineValue (line : String) : Option ℚ :=
  (matchHallLine (pyStrip line.toList)).bind parsePyFloat

/-- The last hall gain declared on a top-level-scanned line, default 0. -/
def lastHallGain (lines : List String) : ℚ :=
  (((topLevelLines lines none).filterMap hallLineValue).getLast?).getD 0

/-! ### Hall augmenter (add_hall_signals) -/

/-- track_name.lower().replace(" ", "_") (ASCII reading of lower()). -/
def normalizeTrackName (s : String) : String :=
  String.mk (s.toList.map (fun c => let d := c.toLower; if d = ' ' then '_' else d))

/-- db_to_linear: 10 ** (db / 20). -/
noncomputable def db_to_linear (db : ℝ) : ℝ := (10 : ℝ) ^ (db / 20)

/-- linear_to_db: 20 * log10(lin) for positive lin, else the -150 floor. -/
noncomputable def linear_to_db (lin : ℝ) : ℝ :=
  if lin ≤ 0 then -150 else 20 * Real.logb 10 lin

/-- A signal once real-valued gains enter (the hall gain is 10^(db/20), an
irrational number in general, so the augmented signal list lives over ℝ). -/
structure RSignal where
  name : String
  weights : List (Nat × ℝ)
  is_hall : Bool

noncomputable def castSignal (s : Signal) : RSignal :=
  ⟨s.name, s.weights.map (fun p => (p.1, (p.2 : ℝ))), s.is_hall⟩

/-- add_hall_signals.  The source iterates "for instr in set(instruments)"
whose order Python leaves unspecified, and breaks after the first instrument
whose ⟨instr⟩_hall pattern equals the normalized track name; since at most one
string instr can satisfy instr ++ "_hall" = name, the iteration order cannot
matter, and we model the loop with find? over the deduplicated list.  The
matched signal is appended only with its instrument's early component present
in component_index, with the single weight entry at that index. -/
noncomputable def add_hall_signals (spec : Spec) (trackNames : List String) : List RSignal :=
  let g := db_to_linear (spec.hall_gain_db : ℝ)
  spec.signals.map castSignal ++ trackNames.filterMap (fun tn =>
    match (spec.instruments.dedup).find? (fun instr => normalizeTrackName tn == instr ++ "_hall") with
    | some instr =>
      match lastIdxOf spec.components (instr ++ "_early") with
      | some idx => some ⟨tn, [(idx, g)], true⟩
      | none => none
    | none => none)

/-- The hall signal the specification's words promise for a supplied name: the
declared instrument (in declaration order) whose ⟨instrument⟩_hall equals the
normalized name, contributing 10^(hall_gain_db/20) solely at that instrument's
early component index. -/
noncomputable def hallSignalSpec (spec : Spec) (tn : String) : Option RSignal :=
  (spec.instruments.find? (fun instr => normalizeTrackName tn == instr ++ "_hall")).bind
    fun instr =>
      (lastIdxOf spec.components (instr ++ "_early")).map fun idx =>
        (⟨tn, [(idx, (10 : ℝ) ^ ((spec.hall_gain_db : ℝ) / 20))], true⟩ : RSignal)

/-! ### Solver (solve_mix)

The source delegates the minimization to a bounded convex optimizer
(L-BFGS-B); its contract, per the design, is the optimality criterion: the
returned x is feasible for the bound x >= 0 and attains the minimum of
objective(x) = sum((A x - target)^2) + 0.01 * sum((x * is_hall)^2) over the
feasible set.  We embed the objective exactly as the code computes it, and a
solver result as any feasible global minimizer. -/

def matVec {m n : ℕ} (A : Fin m → Fin n → ℚ) (x : Fin n → ℚ) (i : Fin m) : ℚ :=
  ∑ j, A i j * x j

/-- Squared residual norm sum((A x - target)^2); np.linalg.norm is its square
root (solverError below). -/
def residualNormSq {m n : ℕ} (A : Fin m → Fin n → ℚ) (target : Fin m → ℚ)
    (x : Fin n → ℚ) : ℚ :=
  ∑ i, (matVec A x i - target i) ^ 2

/-- The HALL_PENALTY coefficient of solve_mix. -/
def HALL_PENALTY : ℚ := 1 / 100

/-- The objective closure of solve_mix. -/
def objective {m n : ℕ} (A : Fin m → Fin n → ℚ) (target : Fin m → ℚ)
    (isHall : Fin n → ℚ) (x : Fin n → ℚ) : ℚ :=
  residualNormSq A target x + HALL_PENALTY * ∑ j, (x j * isHall j) ^ 2

/-- A value the solver may return: feasible for the bounds x >= 0 and globally
optimal among feasible points. -/
def IsSolveMixResult {m n : ℕ} (A : Fin m → Fin n → ℚ) (target : Fin m → ℚ)
    (isHall : Fin n → ℚ) (x : Fin n → ℚ) : Prop :=
  (∀ j, 0 ≤ x j) ∧
    ∀ y : Fin n → ℚ, (∀ j, 0 ≤ y j) →
      objective A target isHall x ≤ objective A target isHall y

/-- error = np.linalg.norm(A @ result.x - target). -/
noncomputable def solverError {m n : ℕ} (A : Fin m → Fin n → ℚ)
    (target : Fin m → ℚ) (x : Fin n → ℚ) : ℝ :=
  Real.sqrt ((residualNormSq A target x : ℚ) : ℝ)

/-! ### Diagnostics reporter (main, lines 369-393)

The per-component record of achieved_mix is modelled as
(name, achieved, target); the free-text problem lines are modelled as
(component name, direction) pairs, where the Bool is true for a positive
difference ("too much baked into source signals") and false for a negative one
("not enough available"); the numeric percentage formatting of the message
text is not modelled. -/

/-- The problems list: every component with abs(achieved - target) > 0.01,
tagged with the sign of the difference. -/
def problemsOf (mix : List (String × ℚ × ℚ)) : List (String × Bool) :=
  mix.filterMap fun e =>
    let diff := e.2.1 - e.2.2
    if (1 : ℚ) / 100 < |diff| then some (e.1, decide (0 < diff)) else none

/-- error_message: produced when error > 0.01 and the problems list is
nonempty, and then it is the problems list. -/
noncomputable def error_message (err : ℝ) (mix : List (String × ℚ × ℚ)) :
    Option (List (String × Bool)) :=
  if (1 : ℝ) / 100 < err then
    (if problemsOf mix = [] then none else some (problemsOf mix))
  else none

/-- result["success"] = bool(success and error < 0.01), stated computably over
the squared residual; the comparison of the square against 0.01^2 is proved
equivalent to the source's comparison of the norm against 0.01 in the theorem
for claim C3. -/
def successFlag (converged : Bool) (resSq : ℚ) : Bool :=
  converged && decide (resSq < (1 / 100 : ℚ) ^ 2)

deriving instance DecidableEq for Except

/-! ## Claims -/

/-- Destructing a successful parse into its two passes. -/
theorem parse_ok_elim {lines : List String} {spec : Spec}
    (h : parseSpecFile lines = some (Except.ok spec)) :
    ∃ r sigs, firstPass lines none [] [] 0 = some r ∧ r.1 ≠ [] ∧
      secondPass (componentsOf r.1) lines none [] = some sigs ∧
      spec = ⟨componentsOf r.1, sigs, buildTarget (componentsOf r.1) r.2.1 [], r.1, r.2.2⟩ := by
  simp only [parseSpecFile] at h
  split at h
  · exact absurd h (by simp)
  · next r hfp =>
    split at h
    · exact absurd h (by simp)
    · next hins =>
      split at h
      · exact absurd h (by simp)
      · next sigs hsp =>
        refine ⟨r, sigs, hfp, hins, hsp, ?_⟩
        exact (Except.ok.inj (Option.some.inj h)).symm

/-- C2 (amended).  Provided no malformed numeric token makes float() raise
(parseSpecFile lines is not none), parsing returns the ParseError exactly when
the first pass declares no instrument — which happens both when no target
block exists and when a target block declares no instrument (so the presence
of a target block alone does not guarantee success, see
parse_error_on_empty_target_block). -/
theorem parse_error_iff_no_instruments (lines : List String)
    (h : parseSpecFile lines ≠ none) :
    (parseSpecFile lines = some (Except.error noTargetMsg) ↔
      (firstPass lines none [] [] 0).map (fun r => r.1) = some []) := by
  simp only [parseSpecFile] at h ⊢
  split at h
  · exact absurd rfl h
  · next r hfp =>
    rw [hfp, Option.map_some']
    by_cases hins : r.1 = []
    · rw [if_pos hins]
      simp [hins]
    · rw [if_neg hins] at h ⊢
      rcases hsp : secondPass (componentsOf r.1) lines none [] with _ | sigs
      · rw [hsp] at h
        exact absurd rfl h
      · simp [hins]

/-- Witness for C2 on a well-formed two-line specification. -/
theorem parse_error_iff_no_instruments_witness :
    parseSpecFile ["target:", "  voc: 1"] ≠ none ∧
      (parseSpecFile ["target:", "  voc: 1"] = some (Except.error noTargetMsg) ↔
        (firstPass ["target:", "  voc: 1"] none [] [] 0).map (fun r => r.1) = some []) :=
  ⟨by with_unfolding_all decide,
    parse_error_iff_no_instruments _ (by with_unfolding_all decide)⟩

/-- Counterexample for C2 as stated: this one-line text contains a target
block (its stripped first line is the target header), yet parsing aborts with
the ParseError, because the block declares no instrument. -/
theorem parse_error_on_empty_target_block :
    (["target:"].map (fun l => String.mk (pyStrip l.toList))) = ["target:"] ∧
      parseSpecFile ["target:"] = some (Except.error noTargetMsg) := by
  with_unfolding_all decide

/-- Option.getD over getLast? strips a cons. -/
theorem getLastD_cons_q (v : ℚ) (l : List ℚ) (g : ℚ) :
    ((v :: l).getLast?).getD g = (l.getLast?).getD v := by
  cases l with
  | nil => rfl
  | cons b t =>
    rw [List.getLast?_cons_cons]
    rcases hx : (b :: t).getLast? with _ | x
    · simp at hx
    · rfl

/-- The hall gain accumulated by the first pass is the last hall value on a
top-level-scanned line (default: the incoming accumulator). -/
theorem firstPass_hall (lines : List String) :
    ∀ (bc : Option (Option Nat × Option String)) (ins : List String)
      (tw : List (String × TW)) (g : ℚ) (r : List String × List (String × TW) × ℚ),
      firstPass lines bc ins tw g = some r →
      r.2.2 = (((topLevelLines lines (bc.map Prod.fst)).filterMap hallLineValue).getLast?).getD g := by
  induction lines with
  | nil =>
    intro bc ins tw g r hr
    simp only [firstPass, Option.some.injEq] at hr
    rw [← hr]
    cases bc <;> simp [topLevelLines]
  | cons line rest ih =>
    intro bc ins tw g r hr
    have hvnone : ∀ st, matchHallLine (pyStrip line.toList) = st → st = none →
        hallLineValue line = none := by
      intro st h1 h2
      rw [hallLineValue, h1, h2, Option.none_bind]
    rcases bc with _ | ⟨b0, c0⟩
    · -- top level
      simp only [firstPass] at hr
      split at hr
      · next ht =>
        have hh := ih (some (none, none)) [] [] g r hr
        simp only [Option.map_some'] at hh
        simp only [Option.map_none', topLevelLines, if_pos ht]
        exact hh
      · next ht =>
        split at hr
        · next num hm =>
          split at hr
          · exact absurd hr (by simp)
          · next v hv =>
            have hh := ih none ins tw v r hr
            have hlv : hallLineValue line = some v := by
              rw [hallLineValue, hm, Option.some_bind, hv]
            simp only [Option.map_none'] at hh ⊢
            rw [topLevelLines, if_neg ht, List.filterMap_cons, hlv, hh,
              getLastD_cons_q]
        · next hm =>
          have hh := ih none ins tw g r hr
          have hlv : hallLineValue line = none := by
            rw [hallLineValue, hm, Option.none_bind]
          simp only [Option.map_none'] at hh ⊢
          rw [topLevelLines, if_neg ht, List.filterMap_cons, hlv]
          exact hh
    · -- inside a target block
      simp only [firstPass] at hr
      split at hr
      · next hbl =>
        have hh := ih (some (b0, c0)) ins tw g r hr
        simp only [Option.map_some'] at hh ⊢
        rw [topLevelLines, if_pos hbl]
        exact hh
      · next hbl =>
        split at hr
        · -- dedent: top-level handling of this line
          next hlt =>
          split at hr
          · next ht =>
            have hh := ih (some (none, none)) [] [] g r hr
            simp only [Option.map_some'] at hh ⊢
            rw [topLevelLines]
            simp only [if_neg hbl, if_pos hlt, if_pos ht]
            exact hh
          · next ht =>
            split at hr
            · next num hm =>
              split at hr
              · exact absurd hr (by simp)
              · next v hv =>
                have hh := ih none ins tw v r hr
                have hlv : hallLineValue line = some v := by
                  rw [hallLineValue, hm, Option.some_bind, hv]
                simp only [Option.map_some', Option.map_none'] at hh ⊢
                rw [topLevelLines]
                simp only [if_neg hbl, if_pos hlt, if_neg ht]
                rw [List.filterMap_cons, hlv, hh, getLastD_cons_q]
            · next hm =>
              have hh := ih none ins tw g r hr
              have hlv : hallLineValue line = none := by
                rw [hallLineValue, hm, Option.none_bind]
              simp only [Option.map_some', Option.map_none'] at hh ⊢
              rw [topLevelLines]
              simp only [if_neg hbl, if_pos hlt, if_neg ht]
              rw [List.filterMap_cons, hlv]
              exact hh
        · next hlt =>
          have htl : topLevelLines (line :: rest) (some b0) =
              topLevelLines rest (some (some (b0.getD (indentOf line)))) := by
            rw [topLevelLines]
            simp only [if_neg hbl, if_neg hlt]
          split at hr
          · next nv hmi =>
            split at hr
            · exact absurd hr (by simp)
            · next w hv =>
              have hh := ih _ _ _ _ r hr
              simp only [Option.map_some'] at hh ⊢
              rw [htl]
              exact hh
          · next hmi =>
            split at hr
            · next a dv cur hmr =>
              split at hr
              · exact absurd hr (by simp)
              · next v hv =>
                have hh := ih _ _ _ _ r hr
                simp only [Option.map_some'] at hh ⊢
                rw [htl]
                exact hh
            · next hother =>
              have hh := ih _ _ _ _ r hr
              simp only [Option.map_some'] at hh ⊢
              rw [htl]
              exact hh

/-- C5 (amended).  The parsed hall gain is the value of the last hall gain
line among the lines the first pass scans at top level — i.e. anywhere except
inside the body of a target block, whose lines are consumed by the target
parser without being examined for hall gain settings (a hall line inside a
signal block still counts, since the first pass does not recognize signal
blocks). -/
theorem hall_gain_last_top_level (lines : List String) (spec : Spec)
    (h : parseSpecFile lines = some (Except.ok spec)) :
    spec.hall_gain_db = lastHallGain lines := by
  obtain ⟨r, sigs, hfp, hins, hsp, hspec⟩ := parse_ok_elim h
  have := firstPass_hall lines none [] [] 0 r hfp
  rw [hspec]
  simpa [lastHallGain] using this

/-- Inputs for the C5 witness: two top-level hall lines, the last one wins. -/
def hallLines : List String :=
  ["hall gain: 3", "target:", "  voc: 1", "hall gain: -2.5"]

def hallLinesSpec : Spec :=
  ⟨["voc_direct", "voc_early"], [], [(0, 0), (1, 0)], ["voc"], -5/2⟩

/-- Witness for C5: on hallLines the parsed hall gain equals the last
top-level hall value (-2.5). -/
theorem hall_gain_last_top_level_witness :
    hallLinesSpec.hall_gain_db = lastHallGain hallLines :=
  hall_gain_last_top_level hallLines hallLinesSpec (by with_unfolding_all decide)

/-- Counterexample for C5 as stated: a hall gain line inside the target block
body is consumed by the target parser and ignored — the parsed hall gain stays
0, not the -6 the claim promises. -/
theorem hall_gain_inside_target_ignored :
    parseSpecFile ["target:", "  voc: 1", "  hall gain: -6"] =
      some (Except.ok ⟨["voc_direct", "voc_early"], [], [(0, 0), (1, 0)], ["voc"], 0⟩) ∧
      (0 : ℚ) ≠ -6 := by
  with_unfolding_all decide

/-- C9.  The decibel / linear conversions are mutually inverse:
linear_to_db (db_to_linear v) = v for every real v, and
db_to_linear (linear_to_db v) = v for every v > 0 (exactly over ℝ, hence
within any floating tolerance). -/
theorem db_linear_inverses :
    (∀ v : ℝ, linear_to_db (db_to_linear v) = v) ∧
      (∀ v : ℝ, 0 < v → db_to_linear (linear_to_db v) = v) := by
  constructor
  · intro v
    have hpos : 0 < db_to_linear v := Real.rpow_pos_of_pos (by norm_num) _
    rw [linear_to_db, if_neg (not_le.mpr hpos), db_to_linear,
      Real.logb_rpow (by norm_num) (by norm_num)]
    ring
  · intro v hv
    rw [linear_to_db, if_neg (not_le.mpr hv), db_to_linear,
      show (20 : ℝ) * Real.logb 10 v / 20 = Real.logb 10 v by ring]
    exact Real.rpow_logb (by norm_num) (by norm_num) hv

/-- Witness for C9 at the concrete input 1. -/
theorem db_linear_inverses_witness : db_to_linear (linear_to_db 1) = 1 :=
  db_linear_inverses.2 1 one_pos

/-- C3.  The reported success flag is true exactly when the solver's
convergence flag is true and the residual norm (the square root of the squared
residual, as np.linalg.norm computes it) is strictly below 0.01. -/
theorem success_iff_converged_and_small_residual {m n : ℕ}
    (A : Fin m → Fin n → ℚ) (target : Fin m → ℚ) (x : Fin n → ℚ)
    (converged : Bool) :
    successFlag converged (residualNormSq A target x) = true ↔
      (converged = true ∧ solverError A target x < 1 / 100) := by
  have hiff : solverError A target x < 1 / 100 ↔
      residualNormSq A target x < (1 / 100 : ℚ) ^ 2 := by
    rw [solverError, Real.sqrt_lt' (by norm_num),
      show ((1 : ℝ) / 100) ^ 2 = (((1 / 100 : ℚ) ^ 2 : ℚ) : ℝ) by push_cast; norm_num]
    exact Rat.cast_lt
  rw [successFlag, Bool.and_eq_true, decide_eq_true_eq, hiff]

/-- C6 (amended).  The diagnostic is produced exactly when the residual norm
strictly exceeds 0.01 and at least one component differs from its target by
more than 0.01 in absolute value; it then lists exactly those components, a
positive difference tagged as over-delivery (true) and a negative one as
under-delivery (false). -/
theorem error_message_characterization (err : ℝ) (mix : List (String × ℚ × ℚ)) :
    ((error_message err mix).isSome = true ↔
      ((1 : ℝ) / 100 < err ∧ ∃ e ∈ mix, (1 : ℚ) / 100 < |e.2.1 - e.2.2|)) ∧
    (∀ nm over, ((nm, over) ∈ (error_message err mix).getD []) ↔
      ((1 : ℝ) / 100 < err ∧ ∃ e ∈ mix, e.1 = nm ∧
        (1 : ℚ) / 100 < |e.2.1 - e.2.2| ∧ (over = true ↔ 0 < e.2.1 - e.2.2))) := by
  have hne : problemsOf mix ≠ [] ↔ ∃ e ∈ mix, (1 : ℚ) / 100 < |e.2.1 - e.2.2| := by
    rw [Ne, problemsOf, List.filterMap_eq_nil_iff]
    push_neg
    constructor
    · rintro ⟨e, he, hnn⟩
      by_cases hc : (1 : ℚ) / 100 < |e.2.1 - e.2.2|
      · exact ⟨e, he, hc⟩
      · exfalso
        apply hnn
        simp only [if_neg hc]
    · rintro ⟨e, he, hlt⟩
      refine ⟨e, he, ?_⟩
      simp only [if_pos hlt]
      exact Option.some_ne_none _
  have hmem : ∀ nm over, ((nm, over) ∈ problemsOf mix ↔
      ∃ e ∈ mix, e.1 = nm ∧ (1 : ℚ) / 100 < |e.2.1 - e.2.2| ∧
        (over = true ↔ 0 < e.2.1 - e.2.2)) := by
    intro nm over
    rw [problemsOf, List.mem_filterMap]
    constructor
    · rintro ⟨e, he, hsome⟩
      by_cases hlt : (1 : ℚ) / 100 < |e.2.1 - e.2.2|
      · simp only [if_pos hlt] at hsome
        have hp := Option.some.inj hsome
        have h1 : e.1 = nm := congrArg Prod.fst hp
        have h2 : decide (0 < e.2.1 - e.2.2) = over := congrArg Prod.snd hp
        exact ⟨e, he, h1, hlt, by rw [← h2]; simp⟩
      · simp only [if_neg hlt] at hsome
        exact absurd hsome (by simp)
    · rintro ⟨e, he, h1, hlt, hsign⟩
      refine ⟨e, he, ?_⟩
      simp only [if_pos hlt]
      have hov : decide (0 < e.2.1 - e.2.2) = over := by
        cases over
        · simp only [Bool.false_eq_true, false_iff] at hsign
          simp [hsign]
        · simp only [true_iff] at hsign
          simp [hsign]
      rw [h1, hov]
  constructor
  · rw [error_message]
    by_cases herr : (1 : ℝ) / 100 < err
    · by_cases hemp : problemsOf mix = []
      · rw [if_pos herr, if_pos hemp]
        simp only [Option.isSome_none, Bool.false_eq_true, false_iff, not_and]
        intro _ hx
        exact (hne.mpr hx) hemp
      · rw [if_pos herr, if_neg hemp]
        simp only [Option.isSome_some, true_iff]
        exact ⟨herr, hne.mp hemp⟩
    · rw [if_neg herr]
      simp only [Option.isSome_none, Bool.false_eq_true, false_iff, not_and]
      intro hc _
      exact herr hc
  · intro nm over
    rw [error_message]
    by_cases herr : (1 : ℝ) / 100 < err
    · by_cases hemp : problemsOf mix = []
      · have hnex : ¬ ∃ e ∈ mix, (1 : ℚ) / 100 < |e.2.1 - e.2.2| :=
          fun hx => (hne.mpr hx) hemp
        rw [if_pos herr, if_pos hemp]
        simp only [Option.getD_none, List.not_mem_nil, false_iff, not_and]
        intro _ hx
        obtain ⟨e, he, _, hlt, _⟩ := hx
        exact hnex ⟨e, he, hlt⟩
      · rw [if_pos herr, if_neg hemp]
        simp only [Option.getD_some]
        rw [hmem nm over]
        exact ⟨fun hx => ⟨herr, hx⟩, fun h => h.2⟩
    · rw [if_neg herr]
      simp only [Option.getD_none, List.not_mem_nil, false_iff, not_and]
      intro hc _
      exact herr hc

/-- Counterexample for C6 as stated: at a residual norm of exactly 0.01 the
claim requires the diagnostic to be produced (its condition is >= 0.01), but
the code produces none (its test is strictly greater).  The mix below
genuinely has residual norm exactly 0.01: its single achieved/target
difference is 0 - 0.01 and sqrt((0 - 0.01)^2) = 0.01, as the third conjunct
records. -/
theorem error_message_at_threshold :
    error_message ((1 : ℝ) / 100) [("gtr_early", (0 : ℚ), 1 / 100)] = none ∧
      (1 : ℝ) / 100 ≥ 1 / 100 ∧
      Real.sqrt (((((0 : ℚ) - 1 / 100 : ℚ) : ℝ)) ^ 2) = 1 / 100 := by
  refine ⟨?_, le_refl _, ?_⟩
  · rw [error_message, if_neg (lt_irrefl _)]
  · rw [Real.sqrt_sq_eq_abs]
    rw [show ((((0 : ℚ) - 1 / 100 : ℚ) : ℝ)) = -(1 / 100) by push_cast; ring]
    rw [abs_neg, abs_of_pos (by norm_num)]

/-- Appending a fixed suffix to strings is injective. -/
theorem string_append_cancel {a b t : String} (h : a ++ t = b ++ t) : a = b := by
  apply String.ext
  have hd := congrArg String.data h
  rw [String.data_append, String.data_append] at hd
  exact List.append_cancel_right hd

/-- A direct component name never coincides with an early component name
(their last characters differ). -/
theorem append_direct_ne_append_early (a b : String) :
    a ++ "_direct" ≠ b ++ "_early" := by
  intro h
  have hd := congrArg String.data h
  rw [String.data_append, String.data_append] at hd
  have h1 := congrArg List.getLast? hd
  rw [List.getLast?_append, List.getLast?_append] at h1
  have e1 : ("_direct" : String).data.getLast? = some 't' := by decide
  have e2 : ("_early" : String).data.getLast? = some 'y' := by decide
  rw [e1, e2] at h1
  simp only [Option.or] at h1
  exact absurd (Option.some.inj h1) (by decide)

/-- Membership in the components list. -/
theorem mem_componentsOf {x : String} : ∀ {l : List String},
    x ∈ componentsOf l ↔ ∃ i ∈ l, x = i ++ "_direct" ∨ x = i ++ "_early" := by
  intro l
  induction l with
  | nil => simp [componentsOf]
  | cons a rest ih =>
    simp only [componentsOf, List.mem_cons, ih]
    constructor
    · rintro (h | h | ⟨i, hi, hd⟩)
      · exact ⟨a, Or.inl rfl, Or.inl h⟩
      · exact ⟨a, Or.inl rfl, Or.inr h⟩
      · exact ⟨i, Or.inr hi, hd⟩
    · rintro ⟨i, (rfl | hi), hd⟩
      · rcases hd with h | h
        · exact Or.inl h
        · exact Or.inr (Or.inl h)
      · exact Or.inr (Or.inr ⟨i, hi, hd⟩)

/-- Distinct instruments yield distinct component names. -/
theorem componentsOf_nodup : ∀ {l : List String}, l.Nodup → (componentsOf l).Nodup := by
  intro l
  induction l with
  | nil => intro _; simp [componentsOf]
  | cons a rest ih =>
    intro h
    rw [List.nodup_cons] at h
    rw [componentsOf, List.nodup_cons, List.nodup_cons]
    refine ⟨?_, ?_, ih h.2⟩
    · intro hmem
      rcases List.mem_cons.mp hmem with he | hm
      · exact append_direct_ne_append_early a a he
      · rcases mem_componentsOf.mp hm with ⟨i, hi, hd | hd⟩
        · exact h.1 (string_append_cancel hd ▸ hi)
        · exact append_direct_ne_append_early a i hd
    · intro hmem
      rcases mem_componentsOf.mp hmem with ⟨i, hi, hd | hd⟩
      · exact append_direct_ne_append_early i a hd.symm
      · exact h.1 (string_append_cancel hd ▸ hi)

theorem componentsOf_length : ∀ (l : List String),
    (componentsOf l).length = 2 * l.length := by
  intro l
  induction l with
  | nil => rfl
  | cons a rest ih =>
    simp only [componentsOf, List.length_cons, ih]
    omega

theorem componentsOf_get?_direct : ∀ (l : List String) (k : Nat) (i : String),
    l.get? k = some i → (componentsOf l).get? (2 * k) = some (i ++ "_direct") := by
  intro l
  induction l with
  | nil => intro k i h; simp at h
  | cons a rest ih =>
    intro k i h
    cases k with
    | zero =>
      rw [List.get?_cons_zero] at h
      obtain rfl := Option.some.inj h
      rfl
    | succ k =>
      rw [List.get?_cons_succ] at h
      have hk := ih k i h
      rw [componentsOf, show 2 * (k + 1) = 2 * k + 1 + 1 by ring,
        List.get?_cons_succ, List.get?_cons_succ]
      exact hk

theorem componentsOf_get?_early : ∀ (l : List String) (k : Nat) (i : String),
    l.get? k = some i → (componentsOf l).get? (2 * k + 1) = some (i ++ "_early") := by
  intro l
  induction l with
  | nil => intro k i h; simp at h
  | cons a rest ih =>
    intro k i h
    cases k with
    | zero =>
      rw [List.get?_cons_zero] at h
      obtain rfl := Option.some.inj h
      rfl
    | succ k =>
      rw [List.get?_cons_succ] at h
      have hk := ih k i h
      rw [componentsOf, show 2 * (k + 1) + 1 = 2 * k + 1 + 1 + 1 by ring,
        List.get?_cons_succ, List.get?_cons_succ]
      exact hk

/-- The component_index dict has no entry exactly for names outside the
components list. -/
theorem lastIdxOf_eq_none_iff : ∀ (l : List String) (n : String),
    lastIdxOf l n = none ↔ n ∉ l := by
  intro l n
  induction l with
  | nil => simp [lastIdxOf]
  | cons c cs ih =>
    rw [lastIdxOf]
    cases h : lastIdxOf cs n with
    | some i =>
      have hmem : n ∈ cs := by
        by_contra hn
        rw [(ih.mpr hn : lastIdxOf cs n = none)] at h
        exact absurd h (by simp)
      simp [List.mem_cons, hmem]
    | none =>
      have hnot : n ∉ cs := ih.mp h
      by_cases hc : c = n
      · simp [hc]
      · have hnc : ¬ n = c := fun hn => hc hn.symm
        simp [hc, List.mem_cons, hnot, hnc]

/-- On a duplicate-free components list the dict lookup inverts list
indexing. -/
theorem lastIdxOf_get?_of_nodup : ∀ (l : List String), l.Nodup →
    ∀ (j : Nat) (x : String), l.get? j = some x → lastIdxOf l x = some j := by
  intro l
  induction l with
  | nil => intro _ j x h; simp at h
  | cons c cs ih =>
    intro hnd j x h
    rw [List.nodup_cons] at hnd
    cases j with
    | zero =>
      rw [List.get?_cons_zero] at h
      obtain rfl := Option.some.inj h
      rw [lastIdxOf, (lastIdxOf_eq_none_iff cs c).mpr hnd.1, if_pos rfl]
    | succ k =>
      rw [List.get?_cons_succ] at h
      rw [lastIdxOf, ih hnd.2 k x h]

/-- C7.  For a parsed specification whose instruments are distinctly named,
the component index mapping is the stated bijection: there are 2N components,
instrument k's direct and early components are mapped to indices 2k and 2k+1,
and conversely every index j < 2N is the image of exactly the component stored
at position j (so the mapping is injective and surjective onto 0..2N-1). -/
theorem component_index_bijection (lines : List String) (spec : Spec)
    (h : parseSpecFile lines = some (Except.ok spec))
    (hnd : spec.instruments.Nodup) :
    spec.components.length = 2 * spec.instruments.length ∧
      (∀ k instr, spec.instruments.get? k = some instr →
        lastIdxOf spec.components (instr ++ "_direct") = some (2 * k) ∧
        lastIdxOf spec.components (instr ++ "_early") = some (2 * k + 1)) ∧
      (∀ j c, spec.components.get? j = some c →
        lastIdxOf spec.components c = some j) := by
  obtain ⟨r, sigs, hfp, hins, hsp, hspec⟩ := parse_ok_elim h
  subst hspec
  dsimp only at hnd ⊢
  have hnodup := componentsOf_nodup hnd
  refine ⟨componentsOf_length r.1, ?_, ?_⟩
  · intro k instr hk
    exact ⟨lastIdxOf_get?_of_nodup _ hnodup _ _ (componentsOf_get?_direct r.1 k instr hk),
      lastIdxOf_get?_of_nodup _ hnodup _ _ (componentsOf_get?_early r.1 k instr hk)⟩
  · intro j c hj
    exact lastIdxOf_get?_of_nodup _ hnodup _ _ hj

/-- Inputs for the C7 witness: two instruments, four components. -/
def twoInstrLines : List String := ["target:", "  voc: 1", "  gtr: 2"]

def twoInstrSpec : Spec :=
  ⟨["voc_direct", "voc_early", "gtr_direct", "gtr_early"], [],
    [(0, 0), (1, 0), (2, 0), (3, 0)], ["voc", "gtr"], 0⟩

/-- Witness for C7: the parsed two-instrument specification has 2*2 components
and maps gtr's early component to index 3 = 2*1 + 1. -/
theorem component_index_bijection_witness :
    twoInstrSpec.components.length = 2 * twoInstrSpec.instruments.length ∧
      lastIdxOf twoInstrSpec.components ("gtr" ++ "_early") = some 3 := by
  have h := component_index_bijection twoInstrLines twoInstrSpec
    (by with_unfolding_all decide) (by decide)
  exact ⟨h.1, (h.2.1 1 "gtr" (by decide)).2⟩

/-- Every stored weight index is a value of the component index dict. -/
def WeightsValid (comps : List String) (w : List (Nat × ℚ)) : Prop :=
  ∀ p ∈ w, ∃ nm, lastIdxOf comps nm = some p.1

theorem weightsValid_nil (comps : List String) : WeightsValid comps [] :=
  fun p hp => absurd hp (List.not_mem_nil p)

theorem weightsValid_updAssoc {comps : List String} {k : Nat} {nm : String}
    (hk : lastIdxOf comps nm = some k) (v : ℚ) :
    ∀ (l : List (Nat × ℚ)), WeightsValid comps l →
      WeightsValid comps (updAssoc l k v) := by
  intro l
  induction l with
  | nil =>
    intro _ p hp
    rw [updAssoc] at hp
    rcases List.mem_singleton.mp hp with rfl
    exact ⟨nm, hk⟩
  | cons q rest ih =>
    intro hl p hp
    rw [updAssoc] at hp
    by_cases hq : q.1 = k
    · rw [if_pos hq] at hp
      rcases List.mem_cons.mp hp with rfl | hp2
      · exact ⟨nm, hk⟩
      · exact hl p (List.mem_cons_of_mem _ hp2)
    · rw [if_neg hq] at hp
      rcases List.mem_cons.mp hp with rfl | hp2
      · exact hl p (List.mem_cons_self _ _)
      · exact ih (fun p3 hp3 => hl p3 (List.mem_cons_of_mem _ hp3)) p hp2

theorem parseComponentParts_valid (signalName : String) (comps : List String) :
    ∀ (parts : List (List Char)) (acc w : List (Nat × ℚ)),
      WeightsValid comps acc →
      parseComponentParts signalName comps parts acc = some w →
      WeightsValid comps w := by
  intro parts
  induction parts with
  | nil =>
    intro acc w hacc h
    rw [parseComponentParts] at h
    obtain rfl := Option.some.inj h
    exact hacc
  | cons part rest ih =>
    intro acc w hacc h
    simp only [parseComponentParts] at h
    split at h
    · exact ih _ _ hacc h
    · split at h
      · exact ih _ _ hacc h
      · split at h
        · exact ih _ _ hacc h
        · split at h
          · exact absurd h (by simp)
          · split at h
            · next idx hidx =>
              exact ih _ _ (weightsValid_updAssoc hidx _ _ hacc) h
            · exact ih _ _ hacc h

theorem secondPass_weightsValid (comps : List String) : ∀ (lines : List String)
    (mode : Option SigCtx) (acc sigs : List Signal),
    (∀ s ∈ acc, WeightsValid comps s.weights) →
    (∀ ctx, mode = some ctx → WeightsValid comps ctx.weights) →
    secondPass comps lines mode acc = some sigs →
    ∀ s ∈ sigs, WeightsValid comps s.weights := by
  intro lines
  induction lines with
  | nil =>
    intro mode acc sigs hacc hmode h
    cases mode with
    | none =>
      rw [secondPass] at h
      obtain rfl := Option.some.inj h
      exact hacc
    | some ctx =>
      rw [secondPass] at h
      obtain rfl := Option.some.inj h
      intro s hs
      rcases List.mem_append.mp hs with hs | hs
      · exact hacc s hs
      · rcases List.mem_singleton.mp hs with rfl
        exact hmode ctx rfl
  | cons line rest ih =>
    intro mode acc sigs hacc hmode h
    cases mode with
    | some ctx =>
      simp only [secondPass] at h
      split at h
      · exact ih _ _ _ hacc hmode h
      · split at h
        · -- dedent: the signal closes and the line is rescanned at top level
          have hacc2 : ∀ s ∈ acc ++ [Signal.mk ctx.sname ctx.weights false],
              WeightsValid comps s.weights := by
            intro s hs
            rcases List.mem_append.mp hs with hs | hs
            · exact hacc s hs
            · rcases List.mem_singleton.mp hs with rfl
              exact hmode ctx rfl
          split at h
          · exact ih _ _ _ hacc2
              (fun ctx2 hctx2 => by
                obtain rfl := Option.some.inj hctx2
                exact weightsValid_nil _) h
          · split at h
            · split at h
              · exact absurd h (by simp)
              · next w hw =>
                simp only [parseSignalComponents] at hw
                refine ih _ _ _ ?_ (fun ctx2 hctx2 => Option.noConfusion hctx2) h
                intro s hs
                rcases List.mem_append.mp hs with hs | hs
                · exact hacc2 s hs
                · rcases List.mem_singleton.mp hs with rfl
                  exact parseComponentParts_valid _ comps _ _ _ (weightsValid_nil _) hw
            · exact ih _ _ _ hacc2 (fun ctx2 hctx2 => Option.noConfusion hctx2) h
        · split at h
          · split at h
            · exact absurd h (by simp)
            · exact ih _ _ _ hacc
                (fun ctx2 hctx2 => by
                  obtain rfl := Option.some.inj hctx2
                  exact hmode ctx rfl) h
          · split at h
            · split at h
              · exact absurd h (by simp)
              · split at h
                · next idx hidx =>
                  exact ih _ _ _ hacc
                    (fun ctx2 hctx2 => by
                      obtain rfl := Option.some.inj hctx2
                      exact weightsValid_updAssoc hidx _ _ (hmode ctx rfl)) h
                · exact ih _ _ _ hacc
                    (fun ctx2 hctx2 => by
                      obtain rfl := Option.some.inj hctx2
                      exact hmode ctx rfl) h
            · exact ih _ _ _ hacc
                (fun ctx2 hctx2 => by
                  obtain rfl := Option.some.inj hctx2
                  exact hmode ctx rfl) h
    | none =>
      simp only [secondPass] at h
      split at h
      · exact ih _ _ _ hacc hmode h
      · split at h
        · exact ih _ _ _ hacc
            (fun ctx2 hctx2 => by
              obtain rfl := Option.some.inj hctx2
              exact weightsValid_nil _) h
        · split at h
          · split at h
            · exact absurd h (by simp)
            · next w hw =>
              simp only [parseSignalComponents] at hw
              refine ih _ _ _ ?_ (fun ctx2 hctx2 => Option.noConfusion hctx2) h
              intro s hs
              rcases List.mem_append.mp hs with hs | hs
              · exact hacc s hs
              · rcases List.mem_singleton.mp hs with rfl
                exact parseComponentParts_valid _ comps _ _ _ (weightsValid_nil _) hw
          · exact ih _ _ _ hacc hmode h

/-- C8.  In a parsed specification every signal weight entry's index is a
value of the component index dict: a token or nested line naming an unknown
component is dropped at parse time and never stored. -/
theorem signal_weights_reference_known_components (lines : List String)
    (spec : Spec) (h : parseSpecFile lines = some (Except.ok spec)) :
    ∀ sig ∈ spec.signals, ∀ p ∈ sig.weights,
      ∃ nm, lastIdxOf spec.components nm = some p.1 := by
  obtain ⟨r, sigs, hfp, hins, hsp, hspec⟩ := parse_ok_elim h
  subst hspec
  dsimp only
  intro sig hsig p hp
  exact secondPass_weightsValid (componentsOf r.1) lines none [] sigs
    (fun s hs => absurd hs (List.not_mem_nil s))
    (fun ctx hctx => Option.noConfusion hctx) hsp sig hsig p hp

/-- Inputs for the C8 witness: an inline signal using the bare direct alias
and a misspelled component name (dropped). -/
def inlineSignalLines : List String :=
  ["target:", "  voc: 1", "signal voc: 0.9 direct, 0.2 bogus"]

def inlineSignalSpec : Spec :=
  ⟨["voc_direct", "voc_early"], [⟨"voc", [(0, 9/10)], false⟩],
    [(0, 0), (1, 0)], ["voc"], 0⟩

/-- Witness for C8: the single stored weight index 0 of the parsed signal is a
dict value (that of voc_direct); the misspelled token was not stored. -/
theorem signal_weights_reference_known_components_witness :
    ∃ nm, lastIdxOf inlineSignalSpec.components nm = some 0 :=
  signal_weights_reference_known_components inlineSignalLines inlineSignalSpec
    (by with_unfolding_all decide) ⟨"voc", [(0, 9/10)], false⟩
    (by with_unfolding_all decide) (0, 9/10) (by with_unfolding_all decide)

/-- find? over a deduplicated list agrees with find? when at most one value
can satisfy the predicate (which makes the unspecified iteration order of the
Python set irrelevant). -/
theorem find?_dedup_of_unique {α : Type} [DecidableEq α] (l : List α)
    (p : α → Bool) (hu : ∀ a b, p a = true → p b = true → a = b) :
    l.dedup.find? p = l.find? p := by
  cases h1 : l.find? p with
  | none =>
    rw [List.find?_eq_none] at h1 ⊢
    intro x hx
    exact h1 x (List.mem_dedup.mp hx)
  | some a =>
    have pa := List.find?_some h1
    have ma := List.mem_of_find?_eq_some h1
    cases h2 : l.dedup.find? p with
    | none =>
      rw [List.find?_eq_none] at h2
      exact absurd pa (h2 a (List.mem_dedup.mpr ma))
    | some b =>
      have pb := List.find?_some h2
      rw [hu b a pb pa]

/-- At most one instrument can match a given normalized track name, since
instr ++ "_hall" determines instr. -/
theorem hall_pred_unique (tn : String) :
    ∀ a b : String, (normalizeTrackName tn == a ++ "_hall") = true →
      (normalizeTrackName tn == b ++ "_hall") = true → a = b := by
  intro a b ha hb
  have ha2 := beq_iff_eq.mp ha
  have hb2 := beq_iff_eq.mp hb
  exact string_append_cancel (ha2.symm.trans hb2)

/-- C4.  For a parsed specification, the hall augmenter output is the parsed
signals followed by exactly one signal per supplied name whose normalization
matches a declared instrument's ⟨instrument⟩_hall, in supplied-name order,
with the original name, is_hall true and the single weight entry
10^(hall_gain_db/20) at that instrument's early index (hallSignalSpec); and
every supplied name matching a declared instrument does yield a signal. -/
theorem add_hall_signals_characterization (lines : List String) (spec : Spec)
    (names : List String) (h : parseSpecFile lines = some (Except.ok spec)) :
    add_hall_signals spec names =
      spec.signals.map castSignal ++ names.filterMap (hallSignalSpec spec) ∧
    ∀ tn instr, instr ∈ spec.instruments →
      normalizeTrackName tn = instr ++ "_hall" →
      (hallSignalSpec spec tn).isSome = true := by
  constructor
  · have hfn : (fun tn =>
        match (spec.instruments.dedup).find?
            (fun instr => normalizeTrackName tn == instr ++ "_hall") with
        | some instr =>
          match lastIdxOf spec.components (instr ++ "_early") with
          | some idx =>
            some (RSignal.mk tn [(idx, db_to_linear (spec.hall_gain_db : ℝ))] true)
          | none => none
        | none => none) = hallSignalSpec spec := by
      funext tn
      rw [find?_dedup_of_unique _ _ (hall_pred_unique tn), hallSignalSpec]
      cases spec.instruments.find?
          (fun instr => normalizeTrackName tn == instr ++ "_hall") with
      | none => rfl
      | some instr =>
        dsimp only [Option.some_bind]
        cases lastIdxOf spec.components (instr ++ "_early") with
        | none => rfl
        | some idx => rfl
    simp only [add_hall_signals]
    rw [hfn]
  · intro tn instr hmem hn
    have hfind : (spec.instruments.find?
        (fun i => normalizeTrackName tn == i ++ "_hall")).isSome = true := by
      cases hf : spec.instruments.find?
          (fun i => normalizeTrackName tn == i ++ "_hall") with
      | none =>
        rw [List.find?_eq_none] at hf
        exact absurd (beq_iff_eq.mpr hn) (hf instr hmem)
      | some i2 => rfl
    obtain ⟨i2, hi2⟩ := Option.isSome_iff_exists.mp hfind
    have pi2 := List.find?_some hi2
    obtain rfl := hall_pred_unique tn i2 instr pi2 (beq_iff_eq.mpr hn)
    have hcomps : spec.components = componentsOf spec.instruments := by
      obtain ⟨r, sigs, hfp, hins, hsp, hspec⟩ := parse_ok_elim h
      rw [hspec]
    have hmemc : (i2 ++ "_early") ∈ spec.components := by
      rw [hcomps, mem_componentsOf]
      exact ⟨i2, hmem, Or.inr rfl⟩
    rw [hallSignalSpec, hi2, Option.some_bind]
    rcases hidx : lastIdxOf spec.components (i2 ++ "_early") with _ | idx
    · exact absurd hmemc ((lastIdxOf_eq_none_iff _ _).mp hidx)
    · rfl

/-- Inputs for the C4 witness (scenario C): hall gain -6 dB, instrument gtr,
and the supplied name Gtr_Hall, which normalizes to gtr_hall. -/
def hallMatchLines : List String := ["hall gain: -6", "target:", "  gtr: 1"]

def hallMatchSpec : Spec :=
  ⟨["gtr_direct", "gtr_early"], [], [(0, 0), (1, 0)], ["gtr"], -6⟩

/-- Witness for C4 on the scenario-C specification and the supplied name
Gtr_Hall. -/
theorem add_hall_signals_characterization_witness :
    add_hall_signals hallMatchSpec ["Gtr_Hall"] =
      hallMatchSpec.signals.map castSignal ++
        ["Gtr_Hall"].filterMap (hallSignalSpec hallMatchSpec) :=
  (add_hall_signals_characterization hallMatchLines hallMatchSpec ["Gtr_Hall"]
    (by with_unfolding_all decide)).1

/-- C1 (amended).  Any value the solver may return (feasible and globally
optimal for the coded objective) has every entry >= 0; in the degenerate case
where A is entirely zero, its residual (squared) norm equals that of the
target and every hall-flagged entry is 0.  (The non-hall entries are NOT
forced near 0 in that case: see solver_may_return_initializer.) -/
theorem solve_mix_result_bounds {m n : ℕ} (A : Fin m → Fin n → ℚ)
    (target : Fin m → ℚ) (isHall : Fin n → ℚ) (x : Fin n → ℚ)
    (hx : IsSolveMixResult A target isHall x) :
    (∀ j, 0 ≤ x j) ∧
      ((∀ i j, A i j = 0) →
        residualNormSq A target x = ∑ i, target i ^ 2 ∧
          ∀ j, isHall j ≠ 0 → x j = 0) := by
  refine ⟨hx.1, fun hA => ?_⟩
  have hres : ∀ y : Fin n → ℚ, residualNormSq A target y = ∑ i, target i ^ 2 := by
    intro y
    unfold residualNormSq matVec
    refine Finset.sum_congr rfl fun i _ => ?_
    rw [Finset.sum_eq_zero (fun j _ => by rw [hA i j]; ring)]
    ring
  refine ⟨hres x, ?_⟩
  have h0 : objective A target isHall x ≤ objective A target isHall (fun _ => 0) :=
    hx.2 _ (fun _ => le_refl 0)
  have hob : objective A target isHall x =
      (∑ i, target i ^ 2) + HALL_PENALTY * ∑ j, (x j * isHall j) ^ 2 := by
    rw [objective, hres]
  have hob0 : objective A target isHall (fun _ => 0) = ∑ i, target i ^ 2 := by
    rw [objective, hres]
    simp
  have hsumzero : ∑ j, (x j * isHall j) ^ 2 = 0 := by
    have hle : HALL_PENALTY * ∑ j, (x j * isHall j) ^ 2 ≤ 0 := by
      rw [hob, hob0] at h0
      linarith
    have hnn : 0 ≤ ∑ j, (x j * isHall j) ^ 2 :=
      Finset.sum_nonneg fun j _ => sq_nonneg _
    have : ∑ j, (x j * isHall j) ^ 2 ≤ 0 := by
      rw [HALL_PENALTY] at hle
      linarith
    linarith
  have hall0 := (Finset.sum_eq_zero_iff_of_nonneg
    (fun j _ => sq_nonneg (x j * isHall j))).1 hsumzero
  intro j hj
  have := hall0 j (Finset.mem_univ j)
  have hmul : x j * isHall j = 0 := by
    exact pow_eq_zero_iff (n := 2) (by norm_num) |>.1 this
  rcases mul_eq_zero.1 hmul with h | h
  · exact h
  · exact absurd h hj

/-- Inputs for the C1 counterexample and witness: one component, one non-hall
signal, zero matrix, target 1. -/
def degA : Fin 1 → Fin 1 → ℚ := fun _ _ => 0

def degT : Fin 1 → ℚ := fun _ => 1

def degH : Fin 1 → ℚ := fun _ => 0

/-- With a zero matrix and no hall signal the objective is constantly 1, so
every nonnegative x is a valid solver result. -/
theorem deg_objective (y : Fin 1 → ℚ) : objective degA degT degH y = 1 := by
  simp [objective, residualNormSq, matVec, HALL_PENALTY, degA, degT, degH]

/-- Counterexample for C1 as stated: in the degenerate all-zero-A case the
solution need not be approximately 0 — the constant 0.3 vector (the solver's
actual initializer, which L-BFGS-B never moves since the gradient vanishes on
non-hall coordinates) is a valid solver result whose entry is 0.3 >= 1/4,
while the residual norm still equals that of the target. -/
theorem solver_may_return_initializer :
    IsSolveMixResult degA degT degH (fun _ => 3 / 10) ∧
      (1 / 4 : ℚ) ≤ (fun _ : Fin 1 => (3 / 10 : ℚ)) 0 ∧
      residualNormSq degA degT (fun _ => 3 / 10) = ∑ i, degT i ^ 2 := by
  refine ⟨⟨fun j => by norm_num, fun y _ => ?_⟩, by norm_num, ?_⟩
  · rw [deg_objective, deg_objective]
  · simp [residualNormSq, matVec, degA, degT]

/-- Witness for C1 at the all-zero solution of the degenerate instance. -/
theorem solve_mix_result_bounds_witness :
    (0 : ℚ) ≤ (fun _ : Fin 1 => (0 : ℚ)) 0 ∧
      residualNormSq degA degT (fun _ => 0) = ∑ i, degT i ^ 2 := by
  have hres : IsSolveMixResult degA degT degH (fun _ => 0) :=
    ⟨fun _ => le_refl 0, fun y _ => by rw [deg_objective, deg_objective]⟩
  have h := solve_mix_result_bounds degA degT degH (fun _ => 0) hres
  exact ⟨h.1 0, (h.2 (fun _ _ => rfl)).1⟩

/-- C10.  Each supplied name appends at most one hall signal: the augmented
list is never longer than the parsed signals plus one per supplied name.  (In
the source this is the break after the first matching instrument; in the
embedding the per-name match is an Option, so a name can never contribute two
signals.) -/
theorem one_hall_signal_per_name (spec : Spec) (names : List String) :
    (add_hall_signals spec names).length ≤ spec.signals.length + names.length := by
  rw [add_hall_signals]
  simp only [List.length_append, List.length_map]
  exact Nat.add_le_add_left (List.length_filterMap_le _ _) _

end Automix
